import Mathlib

/-!
# A shallow embedding of the todo-app storage accessor and view renderer

This file embeds the two components of `src/js/store.js` — the `Store`
storage accessor and the `Template` view renderer — as executable Lean
definitions, and proves the specification claims about them.

Modelling conventions:

* JavaScript values stored in the persisted document are modelled by
  `JsVal`.  JSON `null` never arises in documents this store creates, so it
  is not modelled.  JavaScript objects are modelled as association lists in
  insertion order (`Obj`); a genuine JavaScript object has no duplicate
  keys, which appears as a `Nodup` side condition on quantified objects.
* The persisted document `{tasks: {...}, categories: {...}}` is modelled by
  `Doc`.  Task ids are numbers (`Int`); JavaScript coerces them to string
  property keys, and that coercion is injective on integers, so keying the
  `tasks` map by `Int` is faithful.  Category names are the string property
  keys produced by JavaScript's property-key coercion, modelled by
  `jsToString`.
* Each store operation reads the persisted JSON document, mutates it, and
  synchronously persists it before invoking its callback.  Operations are
  therefore modelled as pure functions from the current document to the
  persisted result together with the value passed to the callback.  An
  early `return` (which neither persists nor invokes the callback) is
  modelled by `none` / a dedicated constructor; a thrown `TypeError`
  (property access on `undefined`) is modelled by an error value.
* `Object.values` / `for ... in` enumeration follows insertion order.
  (JavaScript orders integer-like keys below 2^32 first, but every id this
  application generates is an epoch-millisecond timestamp far above 2^32,
  hence an ordinary string key enumerated in insertion order.)
-/

set_option maxRecDepth 40000

/-- A JavaScript value as it can appear in the persisted JSON document or
be passed to the store/renderer.  `undefined` is JavaScript `undefined`. -/
inductive JsVal where
  | undefined
  | bool (b : Bool)
  | num (n : Int)
  | str (s : String)
  | arr (elems : List JsVal)
  | obj (fields : List (String × JsVal))

mutual

def JsVal.deq : (a b : JsVal) → Decidable (a = b)
  | .undefined, .undefined => .isTrue rfl
  | .bool a, .bool b =>
    if h : a = b then .isTrue (by rw [h]) else .isFalse (fun hh => h (JsVal.bool.inj hh))
  | .num a, .num b =>
    if h : a = b then .isTrue (by rw [h]) else .isFalse (fun hh => h (JsVal.num.inj hh))
  | .str a, .str b =>
    if h : a = b then .isTrue (by rw [h]) else .isFalse (fun hh => h (JsVal.str.inj hh))
  | .arr xs, .arr ys =>
    match JsVal.deqList xs ys with
    | .isTrue h => .isTrue (by rw [h])
    | .isFalse h => .isFalse (fun hh => h (JsVal.arr.inj hh))
  | .obj xs, .obj ys =>
    match JsVal.deqObj xs ys with
    | .isTrue h => .isTrue (by rw [h])
    | .isFalse h => .isFalse (fun hh => h (JsVal.obj.inj hh))
  | .undefined, .bool _ => .isFalse nofun
  | .undefined, .num _ => .isFalse nofun
  | .undefined, .str _ => .isFalse nofun
  | .undefined, .arr _ => .isFalse nofun
  | .undefined, .obj _ => .isFalse nofun
  | .bool _, .undefined => .isFalse nofun
  | .bool _, .num _ => .isFalse nofun
  | .bool _, .str _ => .isFalse nofun
  | .bool _, .arr _ => .isFalse nofun
  | .bool _, .obj _ => .isFalse nofun
  | .num _, .undefined => .isFalse nofun
  | .num _, .bool _ => .isFalse nofun
  | .num _, .str _ => .isFalse nofun
  | .num _, .arr _ => .isFalse nofun
  | .num _, .obj _ => .isFalse nofun
  | .str _, .undefined => .isFalse nofun
  | .str _, .bool _ => .isFalse nofun
  | .str _, .num _ => .isFalse nofun
  | .str _, .arr _ => .isFalse nofun
  | .str _, .obj _ => .isFalse nofun
  | .arr _, .undefined => .isFalse nofun
  | .arr _, .bool _ => .isFalse nofun
  | .arr _, .num _ => .isFalse nofun
  | .arr _, .str _ => .isFalse nofun
  | .arr _, .obj _ => .isFalse nofun
  | .obj _, .undefined => .isFalse nofun
  | .obj _, .bool _ => .isFalse nofun
  | .obj _, .num _ => .isFalse nofun
  | .obj _, .str _ => .isFalse nofun
  | .obj _, .arr _ => .isFalse nofun

def JsVal.deqList : (a b : List JsVal) → Decidable (a = b)
  | [], [] => .isTrue rfl
  | [], _ :: _ => .isFalse nofun
  | _ :: _, [] => .isFalse nofun
  | x :: xs, y :: ys =>
    match JsVal.deq x y, JsVal.deqList xs ys with
    | .isTrue h1, .isTrue h2 => .isTrue (by rw [h1, h2])
    | .isFalse h1, _ => .isFalse (fun h => h1 (List.cons.inj h).1)
    | _, .isFalse h2 => .isFalse (fun h => h2 (List.cons.inj h).2)

def JsVal.deqObj : (a b : List (String × JsVal)) → Decidable (a = b)
  | [], [] => .isTrue rfl
  | [], _ :: _ => .isFalse nofun
  | _ :: _, [] => .isFalse nofun
  | (k1, v1) :: xs, (k2, v2) :: ys =>
    if hk : k1 = k2 then
      match JsVal.deq v1 v2, JsVal.deqObj xs ys with
      | .isTrue h1, .isTrue h2 => .isTrue (by rw [hk, h1, h2])
      | .isFalse h1, _ =>
        .isFalse (fun h => h1 (Prod.mk.inj (List.cons.inj h).1).2)
      | _, .isFalse h2 => .isFalse (fun h => h2 (List.cons.inj h).2)
    else .isFalse (fun h => hk (Prod.mk.inj (List.cons.inj h).1).1)

end

instance : DecidableEq JsVal := JsVal.deq

mutual

/-- JavaScript's string coercion `String(v)`, which is also the coercion
applied to non-string property keys (`todos.categories[updateData.category]`
with a non-string `category` looks up the key `String(category)`). -/
def jsToString : JsVal → String
  | .undefined => "undefined"
  | .bool b => cond b "true" "false"
  | .num n => toString n
  | .str s => s
  | .obj _ => "[object Object]"
  | .arr xs => String.intercalate "," (jsToStringList xs)

/-- `Array.prototype.toString` joins the elements' string forms with commas,
except that `undefined` elements contribute the empty string. -/
def jsToStringList : List JsVal → List String
  | [] => []
  | .undefined :: rest => "" :: jsToStringList rest
  | v :: rest => jsToString v :: jsToStringList rest

end

/-- JavaScript truthiness of a value (`if (data[i].completed)`,
`if (!task)`, ...). -/
def truthy : JsVal → Bool
  | .undefined => false
  | .bool b => b
  | .num n => decide (n ≠ 0)
  | .str s => decide (s ≠ "")
  | .arr _ => true
  | .obj _ => true

/-- JavaScript strict equality `===` on the values this application
compares.  On primitives it is structural equality, exactly as in
JavaScript.  `===` on two objects/arrays is reference identity, which a
shallow embedding cannot observe; it is modelled as `false`, which is the
value `===` takes on the distinct object instances produced by re-parsing
the stored JSON on every operation. -/
def strictEq : JsVal → JsVal → Bool
  | .undefined, .undefined => true
  | .bool a, .bool b => a == b
  | .num a, .num b => a == b
  | .str a, .str b => a == b
  | _, _ => false

/-- A value is a primitive (not an object or array). -/
def JsVal.isPrim : JsVal → Bool
  | .arr _ => false
  | .obj _ => false
  | _ => true

/-! ## Association lists: the model of JavaScript object property tables -/

/-- Property lookup in an association list: the first binding of the key,
if any.  (`none` models a lookup yielding `undefined`.) -/
def aget {α β : Type} [DecidableEq α] : List (α × β) → α → Option β
  | [], _ => none
  | p :: rest, k => if p.1 = k then some p.2 else aget rest k

/-- Property assignment `o[k] = v`: if the key is present its binding is
updated in place (keeping its position), otherwise the new binding is
appended, exactly as JavaScript object assignment orders keys.  (Stated as
replacement of the first binding; a JavaScript object never holds a second
binding of the same key.) -/
def aset {α β : Type} [DecidableEq α] : List (α × β) → α → β → List (α × β)
  | [], k, v => [(k, v)]
  | p :: rest, k, v =>
    if p.1 = k then (k, v) :: rest else p :: aset rest k v

/-- Property deletion `delete o[k]`. -/
def adel {α β : Type} [DecidableEq α] (l : List (α × β)) (k : α) :
    List (α × β) :=
  l.filter (fun p => p.1 ≠ k)

/-- A JavaScript object (e.g. a task record): an association list of string
keys in insertion order. -/
abbrev Obj := List (String × JsVal)

/-- Property access `o[k]` on an object: `undefined` when the key is
absent. -/
def ogetD (o : Obj) (k : String) : JsVal :=
  (aget o k).getD .undefined

/-- An association list that is the image of a real JavaScript object:
no duplicate keys. -/
def wfObj (o : Obj) : Prop := (o.map Prod.fst).Nodup

instance (o : Obj) : Decidable (wfObj o) := by unfold wfObj; infer_instance

/-- The field-merge loop of `Store.prototype.save`:
`for (var key in updateData) { task[key] = updateData[key]; }`. -/
def mergeObj (task updateData : Obj) : Obj :=
  updateData.foldl (fun t p => aset t p.1 p.2) task

/-! ## The persisted document -/

/-- The persisted document
`{tasks: {<id>: Task}, categories: {<name>: [id, ...]}}`. -/
structure Doc where
  tasks : List (Int × Obj)
  categories : List (String × List Int)

/-- The empty document `{ tasks: {}, categories: {} }` created by the
`Store` constructor when no collection is present yet. -/
def emptyDoc : Doc := ⟨[], []⟩

/-- The property key under which a task is indexed in `categories`:
JavaScript coerces `task.category` to a string key (an absent `category`
field yields the key `"undefined"`). -/
def catKey (task : Obj) : String := jsToString (ogetD task "category")

/-- The documented document invariant, exactly as the specification states
it: every id appearing in any category list exists as a key in `tasks`, and
every task's `category` field appears as a key in `categories` with that
task's id present in the corresponding list. -/
def Doc.Inv (d : Doc) : Prop :=
  (∀ p ∈ d.categories, ∀ i ∈ p.2, (aget d.tasks i).isSome) ∧
  (∀ q ∈ d.tasks, q.1 ∈ (aget d.categories (catKey q.2)).getD [])

instance (d : Doc) : Decidable d.Inv := by unfold Doc.Inv; infer_instance

/-- The strengthened well-formedness of a stored document: property tables
have no duplicate keys (true of every JavaScript object), category lists
have no duplicate ids, every listed id belongs to a task whose category is
exactly that list's key, and every task's id is listed under its own
category.  This makes the category map an exact secondary index of the
task map, which is what the save/remove bookkeeping maintains. -/
def Doc.WF (d : Doc) : Prop :=
  (d.tasks.map Prod.fst).Nodup ∧
  (d.categories.map Prod.fst).Nodup ∧
  (∀ p ∈ d.categories, p.2.Nodup) ∧
  (∀ p ∈ d.categories, ∀ i ∈ p.2, (aget d.tasks i).map catKey = some p.1) ∧
  (∀ q ∈ d.tasks, q.1 ∈ (aget d.categories (catKey q.2)).getD [])

instance (d : Doc) : Decidable d.WF := by unfold Doc.WF; infer_instance

/-! ## The storage accessor -/

namespace Store

/-- What `Store.prototype.save` passes to its callback: the whole updated
document when updating an existing task, the one-element list
`[updateData]` when creating a new task. -/
inductive SaveEmit where
  | updated (todos : Doc)
  | created (saved : Obj)

/-- The `else` branch of `Store.prototype.save` (no truthy id given):
assigns `updateData.id = new Date().getTime()` (modelled by the `now`
argument), inserts the task under that id, lazily creates the category
list if absent — `if (!todos.categories[updateData.category])` can only
fire on an absent key, since a present value is an array and arrays are
truthy — and pushes the new id onto it.  The result is persisted and
`[updateData]` is passed to the callback. -/
def saveNew (doc : Doc) (updateData : Obj) (now : Int) :
    Option (Doc × SaveEmit) :=
  let data2 := aset updateData "id" (.num now)
  let ck := catKey data2
  let doc2 : Doc :=
    { tasks := aset doc.tasks now data2,
      categories :=
        aset doc.categories ck (((aget doc.categories ck).getD []) ++ [now]) }
  some (doc2, .created data2)

/-- `Store.prototype.save`.  `id` is the optional third argument and `now`
the current time used when generating a fresh id.  `none` models the silent
early `return` (nothing persisted, callback not invoked); `some (d, e)`
models persisting `d` and invoking the callback with `e`.  Note that the
source dispatches on `if (id)`, i.e. on truthiness: a supplied id of `0`
falls into the id-generation branch. -/
def save (doc : Doc) (updateData : Obj) (id : Option Int) (now : Int) :
    Option (Doc × SaveEmit) :=
  match id with
  | some i =>
    if i = 0 then saveNew doc updateData now
    else
      match aget doc.tasks i with
      | none => none
      | some task =>
        let task2 := mergeObj task updateData
        let doc2 : Doc := { doc with tasks := aset doc.tasks i task2 }
        some (doc2, .updated doc2)
  | none => saveNew doc updateData now

/-- Outcome of `Store.prototype.remove`: `noop` is the silent early
`return` on an unknown id (nothing persisted, callback not invoked);
`crash` is the `TypeError` thrown by
`todos.categories[task.category].length` when the task's category is not a
key of `categories` (undefined has no properties; nothing is persisted and
the callback is not invoked); `done d` persists `d` and passes it to the
callback. -/
inductive RemoveResult where
  | noop
  | crash
  | done (todos : Doc)

/-- `Store.prototype.remove`.  After the unknown-id guard, the source scans
`todos.categories[task.category]` for the first index holding `id`,
splices it out, deletes `todos.tasks[id]`, deletes the category key if its
list became empty, and breaks; it then persists and invokes the callback
(also when the scan found nothing). -/
def remove (doc : Doc) (id : Int) : RemoveResult :=
  match aget doc.tasks id with
  | none => .noop
  | some task =>
    let ck := catKey task
    match aget doc.categories ck with
    | none => .crash
    | some l =>
      if id ∈ l then
        let l2 := l.erase id
        .done
          { tasks := adel doc.tasks id,
            categories :=
              if l2.length = 0 then adel doc.categories ck
              else aset doc.categories ck l2 }
      else .done doc

/-- `Store.prototype.find`: re-reads the document, takes
`Object.values(tasks)`, and filters by the query; with no callback it
returns before reading anything.  `some r` models invoking the callback
with `r`; `none` models the no-callback early return.  The predicate is
the source's `for (var q in query) if (query[q] !== todo[q]) return false;
return true`. -/
def find (doc : Doc) (query : Obj) (hasCallback : Bool) :
    Option (List Obj) :=
  if hasCallback then
    some ((doc.tasks.map Prod.snd).filter
      (fun todo => query.all (fun p => strictEq p.2 (ogetD todo p.1))))
  else none

/-- Property access `v[k]` on an arbitrary value: throws a `TypeError`
(modelled as `.error ()`) when `v` is `undefined`; on primitives it yields
`undefined` (no own properties are modelled); on an object it is ordinary
lookup. -/
def jsGetE (v : JsVal) (k : String) : Except Unit JsVal :=
  match v with
  | .undefined => .error ()
  | .obj o => .ok (ogetD o k)
  | _ => .ok .undefined

/-- The query predicate of `Store.prototype.findCategories`, applied to a
possibly-`undefined` element: `for (var q in query) { if (query[q] !==
todo[q]) return false; } return true;` — accessing `todo[q]` throws when
`todo` is `undefined` and the query is non-empty. -/
def queryFilterE (query : Obj) (todo : JsVal) : Except Unit Bool :=
  match query with
  | [] => .ok true
  | p :: rest => do
    let x ← jsGetE todo p.1
    if strictEq p.2 x then queryFilterE rest todo else pure false

/-- `Array.prototype.filter` with a predicate that can throw: elements are
tested left to right and the first exception aborts everything. -/
def filterListE (query : Obj) : List JsVal → Except Unit (List JsVal)
  | [] => .ok []
  | v :: rest => do
    let b ← queryFilterE query v
    let tail ← filterListE query rest
    pure (if b then v :: tail else tail)

/-- The per-category body of `Store.prototype.findCategories`: the
id-to-task mapping step is an arrow function with a block body and no
`return` — `(id) => { todos.tasks[id]; }` — so it evaluates
`todos.tasks[id]` (which cannot throw: `tasks` is an object), discards the
result, and yields `undefined` for every element.  The filter then runs on
those `undefined` values. -/
def findCategoriesBody (query : Obj) :
    List (String × List Int) → Except Unit (List (String × List JsVal))
  | [] => .ok []
  | (c, ids) :: rest => do
    let mapped := ids.map (fun _ => JsVal.undefined)
    let filtered ← filterListE query mapped
    let tail ← findCategoriesBody query rest
    pure ((c, filtered) :: tail)

/-- `Store.prototype.findCategories` (the path with a callback supplied;
without one the source returns before reading anything).  `.ok m` models
invoking the callback with the categories map `m`; `.error ()` models the
`TypeError` escaping (callback never invoked). -/
def findCategories (doc : Doc) (query : Obj) :
    Except Unit (List (String × List JsVal)) :=
  findCategoriesBody query doc.categories

/-- The JSON value `Store.prototype.drop` writes and passes to its
callback: the source's `var todos = { list: [], categories: {} };`. -/
def dropStored : JsVal :=
  .obj [("list", .arr []), ("categories", .obj [])]

/-- The JSON value the `Store` constructor writes on first access:
`var todos = { tasks: {}, categories: {} };`. -/
def initStored : JsVal :=
  .obj [("tasks", .obj []), ("categories", .obj [])]

/-- The field table of a JSON object value (empty for non-objects). -/
def jfields : JsVal → List (String × JsVal)
  | .obj fs => fs
  | _ => []

/-- The documents reachable by the storage accessor: the empty document of
a fresh collection, followed by any sequence of persisting `save` and
`remove` operations. -/
inductive Reachable : Doc → Prop where
  | init : Reachable emptyDoc
  | saveStep {d : Doc} {data : Obj} {id : Option Int} {now : Int} {d2 : Doc}
      {e : SaveEmit} (hr : Reachable d) (hs : save d data id now = some (d2, e)) :
      Reachable d2
  | removeStep {d : Doc} {i : Int} {d2 : Doc} (hr : Reachable d)
      (hs : remove d i = .done d2) : Reachable d2

end Store

/-! ## The view renderer -/

namespace Template

/-- The escape table `htmlEscapes` of the renderer (the double quote,
single quote and backtick are written via their character codes 34, 39
and 96). -/
def htmlEscapes : List (Char × String) :=
  [('&', "&amp;"), ('<', "&lt;"), ('>', "&gt;"),
   (Char.ofNat 34, "&quot;"), (Char.ofNat 39, "&#x27;"),
   (Char.ofNat 96, "&#x60;")]

/-- Membership in the character class of `reUnescapedHtml`. -/
def isUnescapedHtml (c : Char) : Bool :=
  htmlEscapes.any (fun p => p.1 = c)

/-- `escapeHtmlChar`: the entity for one matched character. -/
def escapeHtmlChar (c : Char) : String :=
  (aget htmlEscapes c).getD (String.singleton c)

/-- `string.replace(reUnescapedHtml, escapeHtmlChar)`: the regex is a
global single-character class, so the replacement maps each character
independently. -/
def escapeChars : List Char → List Char
  | [] => []
  | c :: rest =>
    (if isUnescapedHtml c then (escapeHtmlChar c).data else [c]) ++
      escapeChars rest

/-- `reHasUnescapedHtml.test(string)`. -/
def hasUnescapedHtml (s : String) : Bool := s.data.any isUnescapedHtml

/-- The renderer's `escape` function: `string && reHasUnescapedHtml.test(string)
? string.replace(reUnescapedHtml, escapeHtmlChar) : string` — the empty
string is the only falsy string and is returned unchanged. -/
def escape (s : String) : String :=
  if s = "" then s
  else if hasUnescapedHtml s then String.mk (escapeChars s.data)
  else s

/-- `escape` as applied to a task field value: string values are escaped;
the falsy non-string values the renderer can receive (and numbers, which
never contain escapable characters) pass through unchanged. -/
def escapeVal (v : JsVal) : JsVal :=
  match v with
  | .str s => .str (escape s)
  | v => v

/-- JavaScript `String.prototype.replace` with a string pattern: replaces
the first occurrence only.  (The `$`-substitution patterns of JavaScript
replacement strings are not modelled; no template replacement in this
renderer produces them.) -/
def listReplaceFirst (s pat rep : List Char) : List Char :=
  match s with
  | [] => []
  | c :: rest =>
    if pat.isPrefixOf (c :: rest) then rep ++ (c :: rest).drop pat.length
    else c :: listReplaceFirst rest pat rep

def replaceFirst (s pat rep : String) : String :=
  String.mk (listReplaceFirst s.data pat.data rep.data)

/-- `this.templateWrapper` (braces of the placeholder syntax are written
via their character code, `\x7b`/`\x7d`). -/
def templateWrapper : String :=
  "<ul class=\"\x7b\x7bwrapperClass\x7d\x7d\">\x7b\x7bitems\x7d\x7d</ul>"

/-- `this.defaultTemplate`. -/
def defaultTemplate : String :=
  "<li data-id=\"\x7b\x7bid\x7d\x7d\" class=\"\x7b\x7bcompleted\x7d\x7d\">" ++
  "<div class=\"view\">" ++
  "<input class=\"toggle\" type=\"checkbox\" \x7b\x7bchecked\x7d\x7d>" ++
  "<label class=\"title-label\">\x7b\x7btitle\x7d\x7d</label>" ++
  "<label class=\"category-label\">\x7b\x7bcategory\x7d\x7d</label>" ++
  "<button class=\"destroy\"></button>" ++
  "</div>" ++
  "</li>"

/-- The loop body of `Template.prototype.show` for one task record. -/
def itemView (showCategory : Bool) (t : Obj) : String :=
  let completed := if truthy (ogetD t "completed") then "completed" else ""
  let checked := if truthy (ogetD t "completed") then "checked" else ""
  let s1 := replaceFirst defaultTemplate "\x7b\x7bid\x7d\x7d"
    (jsToString (ogetD t "id"))
  let s2 := replaceFirst s1 "\x7b\x7btitle\x7d\x7d"
    (jsToString (escapeVal (ogetD t "title")))
  let s3 := replaceFirst s2 "\x7b\x7bcategory\x7d\x7d"
    (if showCategory then jsToString (escapeVal (ogetD t "category")) else "")
  let s4 := replaceFirst s3 "\x7b\x7bcompleted\x7d\x7d" completed
  replaceFirst s4 "\x7b\x7bchecked\x7d\x7d" checked

/-- `Template.prototype.show` (named `showTasks` here because `show` is a
Lean keyword): one item per task, concatenated in order, wrapped in the
list container with class `todo-list`. -/
def showTasks (data : List Obj) (showCategory : Bool := true) : String :=
  let view := String.join (data.map (itemView showCategory))
  let v2 := replaceFirst templateWrapper "\x7b\x7bitems\x7d\x7d" view
  replaceFirst v2 "\x7b\x7bwrapperClass\x7d\x7d" "todo-list"

/-- Substring test (used only to state properties of rendered output). -/
def listContainsSub (pat : List Char) : List Char → Bool
  | [] => pat.isEmpty
  | c :: rest => pat.isPrefixOf (c :: rest) || listContainsSub pat rest

def strContains (s pat : String) : Bool := listContainsSub pat.data s.data

end Template

/-! ## Concrete documents used in witnesses and counterexamples -/

/-- A one-task document as `save` itself creates it from the empty
document (`save(emptyDoc, {title:"a", category:"a"}, cb)` at time 1). -/
def categoryChangeDoc : Doc :=
  ⟨[(1, [("title", .str "a"), ("category", .str "a"), ("id", .num 1)])],
   [("a", [1])]⟩

/-- `categoryChangeDoc` after `save({category:"b"}, cb, 1)`: the task's
`category` field now reads `"b"` but the category index still lists id 1
under `"a"` only. -/
def categoryChangeDocAfter : Doc :=
  ⟨[(1, [("title", .str "a"), ("category", .str "b"), ("id", .num 1)])],
   [("a", [1])]⟩

/-- A well-formed one-task document used to exercise `remove`. -/
def sampleStoreDoc : Doc :=
  ⟨[(5, [("title", .str "a"), ("category", .str "home"), ("id", .num 5)])],
   [("home", [5])]⟩

/-- A document whose single task sits under the (unreachable in normal
operation) id 0, used to exercise the `if (id)` truthiness dispatch of
`save`. -/
def zeroKeyDoc : Doc :=
  ⟨[(0, [("category", .str "a"), ("id", .num 0)])], [("a", [0])]⟩

/-- A document holding one completed and one active task, used to exercise
`find`. -/
def findSampleDoc : Doc :=
  ⟨[(1, [("title", .str "a"), ("category", .str "h"), ("completed", .bool true), ("id", .num 1)]),
    (2, [("title", .str "b"), ("category", .str "h"), ("completed", .bool false), ("id", .num 2)])],
   [("h", [1, 2])]⟩

/-- A document whose task's `category` field names no key of `categories`
(the invariant is broken), used to exercise the unguarded
`todos.categories[task.category].length` access of `remove`. -/
def brokenCategoryDoc : Doc :=
  ⟨[(1, [("category", .str "x"), ("id", .num 1)])], []⟩

/-! ## Association-list lemmas -/

section AListLemmas

variable {α β : Type} [DecidableEq α]

theorem aget_eq_none_iff {l : List (α × β)} {k : α} :
    aget l k = none ↔ k ∉ l.map Prod.fst := by
  induction l with
  | nil => simp [aget]
  | cons p rest ih =>
    by_cases h : p.1 = k
    · simp [aget, h]
    · simp [aget, h, ih, Ne.symm h]

theorem aget_mem {l : List (α × β)} {k : α} {v : β} (h : aget l k = some v) :
    (k, v) ∈ l := by
  induction l with
  | nil => simp [aget] at h
  | cons p rest ih =>
    obtain ⟨a, b⟩ := p
    by_cases hp : a = k
    · simp only [aget, hp, if_pos rfl] at h
      injection h with h
      subst hp
      subst h
      exact List.mem_cons_self _ _
    · simp only [aget, hp, if_neg hp] at h
      exact List.mem_cons_of_mem _ (ih h)

theorem mem_aget {l : List (α × β)} (hn : (l.map Prod.fst).Nodup)
    {k : α} {v : β} (h : (k, v) ∈ l) : aget l k = some v := by
  induction l with
  | nil => simp at h
  | cons p rest ih =>
    simp only [List.map_cons, List.nodup_cons] at hn
    rcases List.mem_cons.mp h with h1 | h1
    · subst h1
      simp [aget]
    · have hk : k ∈ rest.map Prod.fst :=
        List.mem_map.mpr ⟨(k, v), h1, rfl⟩
      have hne : p.1 ≠ k := fun he => hn.1 (he ▸ hk)
      simp only [aget, hne, if_neg hne]
      exact ih hn.2 h1

theorem aget_aset_self (l : List (α × β)) (k : α) (v : β) :
    aget (aset l k v) k = some v := by
  induction l with
  | nil => simp [aset, aget]
  | cons p rest ih =>
    by_cases hp : p.1 = k
    · simp [aset, aget, hp]
    · simp [aset, aget, hp, ih]

theorem aget_aset_ne (l : List (α × β)) {k k2 : α} (v : β) (h : k2 ≠ k) :
    aget (aset l k v) k2 = aget l k2 := by
  induction l with
  | nil =>
    have hk : ¬(k = k2) := fun he => h he.symm
    simp [aset, aget, hk]
  | cons p rest ih =>
    by_cases hp : p.1 = k
    · have hk2 : k ≠ k2 := Ne.symm h
      have hp2 : p.1 ≠ k2 := hp ▸ hk2
      simp [aset, aget, hp, hk2, hp2]
    · by_cases hp2 : p.1 = k2
      · simp [aset, aget, hp, hp2, h]
      · simp [aset, aget, hp, hp2, ih]

theorem aget_adel_self (l : List (α × β)) (k : α) :
    aget (adel l k) k = none := by
  rw [aget_eq_none_iff]
  intro hmem
  rcases List.mem_map.mp hmem with ⟨p, hp, hpk⟩
  have := List.of_mem_filter hp
  simp [hpk] at this

theorem adel_cons_drop {k : α} {p : α × β} (rest : List (α × β))
    (hp : p.1 = k) : adel (p :: rest) k = adel rest k := by
  simp [adel, List.filter_cons, hp]

theorem adel_cons_keep {k : α} {p : α × β} (rest : List (α × β))
    (hp : p.1 ≠ k) : adel (p :: rest) k = p :: adel rest k := by
  simp [adel, List.filter_cons, hp]

theorem aget_adel_ne (l : List (α × β)) {k k2 : α} (h : k2 ≠ k) :
    aget (adel l k) k2 = aget l k2 := by
  induction l with
  | nil => rfl
  | cons p rest ih =>
    by_cases hp : p.1 = k
    · have hp2 : p.1 ≠ k2 := hp ▸ Ne.symm h
      rw [adel_cons_drop rest hp, ih]
      simp [aget, hp2]
    · rw [adel_cons_keep rest hp]
      by_cases hp2 : p.1 = k2
      · simp [aget, hp2]
      · simp [aget, hp2, ih]

theorem keys_aset_present {l : List (α × β)} {k : α} (v : β)
    (h : (aget l k).isSome) :
    (aset l k v).map Prod.fst = l.map Prod.fst := by
  induction l with
  | nil => simp [aget] at h
  | cons p rest ih =>
    by_cases hp : p.1 = k
    · simp [aset, hp]
    · simp only [aget, hp, if_neg hp] at h
      simp [aset, hp, ih h]

theorem keys_aset_absent {l : List (α × β)} {k : α} (v : β)
    (h : aget l k = none) :
    (aset l k v).map Prod.fst = l.map Prod.fst ++ [k] := by
  induction l with
  | nil => simp [aset]
  | cons p rest ih =>
    by_cases hp : p.1 = k
    · simp [aget, hp] at h
    · simp only [aget, hp, if_neg hp] at h
      simp [aset, hp, ih h]

theorem length_aset_absent {l : List (α × β)} {k : α} (v : β)
    (h : aget l k = none) :
    (aset l k v).length = l.length + 1 := by
  induction l with
  | nil => simp [aset]
  | cons p rest ih =>
    by_cases hp : p.1 = k
    · simp [aget, hp] at h
    · simp only [aget, hp, if_neg hp] at h
      simp [aset, hp, ih h]

theorem mem_aset_elim {l : List (α × β)} (hn : (l.map Prod.fst).Nodup)
    {k : α} {v : β} {p : α × β}
    (h : p ∈ aset l k v) : p = (k, v) ∨ (p ∈ l ∧ p.1 ≠ k) := by
  induction l with
  | nil =>
    simp [aset] at h
    left
    simp [h]
  | cons q rest ih =>
    simp only [List.map_cons, List.nodup_cons] at hn
    by_cases hq : q.1 = k
    · simp only [aset, hq, if_pos rfl] at h
      rcases List.mem_cons.mp h with h1 | h1
      · left
        exact h1
      · right
        refine ⟨List.mem_cons_of_mem _ h1, fun hpk => ?_⟩
        exact hn.1 (hq ▸ hpk ▸ List.mem_map.mpr ⟨p, h1, rfl⟩)
    · simp only [aset, hq, if_neg hq] at h
      rcases List.mem_cons.mp h with h1 | h1
      · right
        exact ⟨h1 ▸ List.mem_cons_self _ _, h1 ▸ hq⟩
      · rcases ih hn.2 h1 with h2 | h2
        · left
          exact h2
        · right
          exact ⟨List.mem_cons_of_mem _ h2.1, h2.2⟩

theorem mem_adel_elim {l : List (α × β)} {k : α} {p : α × β}
    (h : p ∈ adel l k) : p ∈ l ∧ p.1 ≠ k := by
  unfold adel at h
  exact ⟨List.mem_of_mem_filter h, by simpa using List.of_mem_filter h⟩

theorem keys_adel (l : List (α × β)) (k : α) :
    (adel l k).map Prod.fst = (l.map Prod.fst).filter (fun x => x ≠ k) := by
  induction l with
  | nil => rfl
  | cons p rest ih =>
    by_cases hp : p.1 = k
    · rw [adel_cons_drop rest hp, ih]
      simp [List.filter_cons, hp]
    · rw [adel_cons_keep rest hp]
      simp [List.filter_cons, hp, ih]

theorem nodup_keys_aset {l : List (α × β)} {k : α} (v : β)
    (h : (l.map Prod.fst).Nodup) : ((aset l k v).map Prod.fst).Nodup := by
  rcases hs : aget l k with _ | w
  · rw [keys_aset_absent v hs]
    have hk : k ∉ l.map Prod.fst := aget_eq_none_iff.mp hs
    simp [List.nodup_append, h, hk]
  · rw [keys_aset_present v (by rw [hs]; rfl)]
    exact h

theorem nodup_keys_adel {l : List (α × β)} {k : α}
    (h : (l.map Prod.fst).Nodup) : ((adel l k).map Prod.fst).Nodup := by
  rw [keys_adel]
  exact h.filter _

end AListLemmas

section SanityChecks

example : Template.escape "<b>" = "&lt;b&gt;" := by rfl

example : Template.strContains (Template.showTasks
    [[("id", .num 1), ("title", .str "<b>"), ("category", .str "x"),
      ("completed", .bool true)]] true) "&lt;b&gt;" = true := by rfl

example : Store.save emptyDoc [("title", .str "a"), ("category", .str "home")]
    none 5 =
    some (⟨[(5, [("title", .str "a"), ("category", .str "home"),
                 ("id", .num 5)])], [("home", [5])]⟩,
      .created [("title", .str "a"), ("category", .str "home"),
                ("id", .num 5)]) := by rfl

example : Store.remove
    ⟨[(5, [("title", .str "a"), ("category", .str "home"), ("id", .num 5)])],
     [("home", [5])]⟩ 5 = .done ⟨[], []⟩ := by rfl

example : Store.remove ⟨[(5, [("category", .str "home")])], []⟩ 5 =
    .crash := by rfl

example : Store.findCategories ⟨[(5, [("category", .str "h")])], [("h", [5])]⟩
    [("completed", .bool true)] = .error () := by rfl

example : Store.findCategories ⟨[(5, [("category", .str "h")])], [("h", [5])]⟩
    [] = .ok [("h", [JsVal.undefined])] := by rfl

end SanityChecks

/-! ## Helper lemmas about the embedded operations -/

theorem aget_isSome_of_mem_keys {α β : Type} [DecidableEq α]
    {l : List (α × β)} {k : α} (h : k ∈ l.map Prod.fst) :
    (aget l k).isSome := by
  rcases hs : aget l k with _ | v
  · exact absurd h (aget_eq_none_iff.mp hs)
  · rfl

theorem nodup_append_single {α : Type} {l : List α} {a : α}
    (h : l.Nodup) (ha : a ∉ l) : (l ++ [a]).Nodup := by
  simp [List.nodup_append, h, ha]

theorem queryFilterE_undef (p : String × JsVal) (rest : Obj) :
    Store.queryFilterE (p :: rest) JsVal.undefined = .error () := rfl

theorem except_bind_error {α β : Type} (f : α → Except Unit β) :
    ((Except.error () : Except Unit α) >>= f) = Except.error () := rfl

theorem except_bind_ok {α β : Type} (a : α) (f : α → Except Unit β) :
    ((Except.ok a : Except Unit α) >>= f) = f a := rfl

theorem filterListE_undef_cons (query : Obj) (hq : query ≠ [])
    (v : List JsVal) :
    Store.filterListE query (JsVal.undefined :: v) = .error () := by
  cases query with
  | nil => exact absurd rfl hq
  | cons p rest => rfl

theorem findCategoriesBody_error (query : Obj) (hq : query ≠ []) :
    ∀ (cats : List (String × List Int)) (c : String) (l : List Int),
    (c, l) ∈ cats → l ≠ [] →
    Store.findCategoriesBody query cats = .error () := by
  intro cats
  induction cats with
  | nil =>
    intro c l hc _
    simp at hc
  | cons p rest ih =>
    intro c l hc hl
    obtain ⟨c0, ids⟩ := p
    cases ids with
    | cons i ids2 =>
      simp [Store.findCategoriesBody, filterListE_undef_cons query hq,
        except_bind_error]
    | nil =>
      have hc2 : (c, l) ∈ rest := by
        rcases List.mem_cons.mp hc with h1 | h1
        · exact absurd (congrArg Prod.snd h1) hl
        · exact h1
      simp [Store.findCategoriesBody, Store.filterListE, ih c l hc2 hl,
        except_bind_ok, except_bind_error]

/-- C2: in `findCategories(query, callback)` the id-to-task mapping step
discards its result (an arrow function with a block body and no `return`),
so the per-category filter runs on `undefined` values; with any non-empty
query the first filtered element makes `todo[q]` a property access on
`undefined`, and the whole call throws instead of reaching the callback. -/
theorem findCategories_filters_undefined (doc : Doc) (query : Obj)
    (hq : query ≠ []) (c : String) (l : List Int)
    (hc : (c, l) ∈ doc.categories) (hl : l ≠ []) :
    Store.findCategories doc query = .error () :=
  findCategoriesBody_error query hq doc.categories c l hc hl

/-- Witness for C2: on a stored document with one task indexed under
category `"h"`, `findCategories({completed: true})` throws. -/
theorem findCategories_filters_undefined_witness :
    ([(("completed" : String), JsVal.bool true)] ≠ ([] : Obj)) ∧
    (("h", [(5 : Int)]) ∈
      (⟨[(5, [("category", JsVal.str "h")])], [("h", [5])]⟩ : Doc).categories) ∧
    ([(5 : Int)] ≠ []) ∧
    Store.findCategories ⟨[(5, [("category", JsVal.str "h")])], [("h", [5])]⟩
      [("completed", JsVal.bool true)] = .error () :=
  ⟨by simp, by simp, by simp,
   findCategories_filters_undefined _ _ (by simp) "h" [5] (by simp) (by simp)⟩

/-- C3 (code bug): `drop` is specified to reset the collection to the same
empty document the constructor creates, `{tasks: {}, categories: {}}` —
and every other store operation reads `.tasks` of the stored document —
but the source's `drop` writes the stale pre-refactor shape
`{list: [], categories: {}}`, which has no `tasks` key at all. -/
theorem drop_writes_stale_shape :
    Store.dropStored ≠ Store.initStored ∧
    aget (Store.jfields Store.dropStored) "tasks" = none ∧
    aget (Store.jfields Store.initStored) "tasks" = some (.obj []) ∧
    aget (Store.jfields Store.dropStored) "list" = some (.arr []) := by
  exact ⟨by decide, rfl, rfl, rfl⟩

/-- C10: `remove` reads `todos.categories[task.category].length` without
checking that the task's category is a key of `categories`; if it is not,
the lookup yields `undefined` and the `.length` access throws, so the call
neither persists anything nor invokes the callback (instead of degrading
to a silent no-op). -/
theorem remove_missing_category_crashes (doc : Doc) (id : Int) (task : Obj)
    (htask : aget doc.tasks id = some task)
    (hcat : aget doc.categories (catKey task) = none) :
    Store.remove doc id = .crash := by
  unfold Store.remove
  rw [htask]
  dsimp only
  rw [hcat]

/-- Witness for C10: a document whose task 1 has category `"x"` while
`categories` has no `"x"` key makes `remove(1)` throw. -/
theorem remove_missing_category_crashes_witness :
    aget brokenCategoryDoc.tasks 1 =
      some [("category", JsVal.str "x"), ("id", JsVal.num 1)] ∧
    aget brokenCategoryDoc.categories
      (catKey [("category", JsVal.str "x"), ("id", JsVal.num 1)]) = none ∧
    Store.remove brokenCategoryDoc 1 = .crash :=
  ⟨rfl, rfl, remove_missing_category_crashes brokenCategoryDoc 1 _ rfl rfl⟩

/-- C4: saving with no id inserts exactly one task — `updateData` with its
`id` field set to the generated timestamp — under that fresh id, leaves
every other task binding unchanged, appends the new id to its category's
list (creating the list when the category key was absent), and passes
`[updateData]` to the callback. -/
theorem save_new_inserts_task (doc : Doc) (data : Obj) (now : Int)
    (d2 : Doc) (e : Store.SaveEmit)
    (hfresh : aget doc.tasks now = none)
    (hrun : Store.save doc data none now = some (d2, e)) :
    e = .created (aset data "id" (.num now)) ∧
    aget d2.tasks now = some (aset data "id" (.num now)) ∧
    (∀ k : Int, k ≠ now → aget d2.tasks k = aget doc.tasks k) ∧
    d2.tasks.length = doc.tasks.length + 1 ∧
    aget d2.categories (catKey (aset data "id" (.num now))) =
      some (((aget doc.categories (catKey (aset data "id" (.num now)))).getD [])
        ++ [now]) ∧
    (∀ c : String, c ≠ catKey (aset data "id" (.num now)) →
      aget d2.categories c = aget doc.categories c) := by
  simp only [Store.save, Store.saveNew, Option.some.injEq, Prod.mk.injEq] at hrun
  obtain ⟨hd, he⟩ := hrun
  subst hd
  refine ⟨he.symm, aget_aset_self _ _ _, fun k hk => aget_aset_ne _ _ hk,
    length_aset_absent _ hfresh, aget_aset_self _ _ _,
    fun c hc => aget_aset_ne _ _ hc⟩

/-- Witness for C4: saving `{title:"a", category:"home"}` into the empty
document at time 5 produces exactly `sampleStoreDoc`. -/
theorem save_new_inserts_task_witness :
    aget emptyDoc.tasks 5 = none ∧
    aget sampleStoreDoc.tasks 5 =
      some [("title", JsVal.str "a"), ("category", JsVal.str "home"),
            ("id", JsVal.num 5)] ∧
    sampleStoreDoc.tasks.length = emptyDoc.tasks.length + 1 ∧
    aget sampleStoreDoc.categories "home" = some [5] :=
  ⟨rfl,
   (save_new_inserts_task emptyDoc
     [("title", JsVal.str "a"), ("category", JsVal.str "home")] 5
     sampleStoreDoc (.created [("title", JsVal.str "a"),
       ("category", JsVal.str "home"), ("id", JsVal.num 5)]) rfl rfl).2.1,
   (save_new_inserts_task emptyDoc
     [("title", JsVal.str "a"), ("category", JsVal.str "home")] 5
     sampleStoreDoc (.created [("title", JsVal.str "a"),
       ("category", JsVal.str "home"), ("id", JsVal.num 5)]) rfl rfl).2.2.2.1,
   (save_new_inserts_task emptyDoc
     [("title", JsVal.str "a"), ("category", JsVal.str "home")] 5
     sampleStoreDoc (.created [("title", JsVal.str "a"),
       ("category", JsVal.str "home"), ("id", JsVal.num 5)]) rfl rfl).2.2.2.2.1⟩

/-- Counterexample for C6 as stated: `save` dispatches on `if (id)`, i.e.
on truthiness, so the id `0` — which is not a key of `tasks` — is treated
as if no id had been given: a brand-new task is created, the document
changes, and the callback fires, instead of the claimed silent no-op. -/
theorem save_zero_id_creates_task :
    aget emptyDoc.tasks 0 = none ∧
    Store.save emptyDoc [("title", JsVal.str "a")] (some 0) 7 =
      some (⟨[(7, [("title", JsVal.str "a"), ("id", JsVal.num 7)])],
             [("undefined", [7])]⟩,
        .created [("title", JsVal.str "a"), ("id", JsVal.num 7)]) ∧
    (⟨[(7, [("title", JsVal.str "a"), ("id", JsVal.num 7)])],
      [("undefined", [7])]⟩ : Doc).tasks.length ≠ emptyDoc.tasks.length :=
  ⟨rfl, rfl, by decide⟩

/-- C6 (amended): for every id that is not a key of `tasks`, `remove(id,
callback)` hits its unknown-id guard — nothing is persisted and the
callback is not invoked — and `save(data, callback, id)` does the same
provided the id is nonzero: it hits `if (!task) return`, whereas a zero
id is falsy and takes the creation branch (`remove` needs no nonzero
restriction, since it tests only `!todos.tasks[id]`). -/
theorem unknown_id_silent_noop (doc : Doc) (id : Int) (data : Obj)
    (now : Int) (hid : aget doc.tasks id = none) :
    (id ≠ 0 → Store.save doc data (some id) now = none) ∧
    Store.remove doc id = .noop := by
  constructor
  · intro h0
    unfold Store.save
    dsimp only
    rw [if_neg h0, hid]
  · unfold Store.remove
    rw [hid]

/-- Witness for C6: id 3 is unknown to the empty document, and `save` and
`remove` both leave it alone and emit nothing; `remove` also no-ops on
the unknown falsy id 0. -/
theorem unknown_id_silent_noop_witness :
    ((3 : Int) ≠ 0) ∧ aget emptyDoc.tasks 3 = none ∧
    Store.save emptyDoc [("title", JsVal.str "x")] (some 3) 9 = none ∧
    Store.remove emptyDoc 3 = .noop ∧
    aget emptyDoc.tasks 0 = none ∧
    Store.remove emptyDoc 0 = .noop :=
  ⟨by decide, rfl,
   (unknown_id_silent_noop emptyDoc 3 [("title", JsVal.str "x")] 9 rfl).1
     (by decide),
   (unknown_id_silent_noop emptyDoc 3 [("title", JsVal.str "x")] 9 rfl).2,
   rfl,
   (unknown_id_silent_noop emptyDoc 0 [("title", JsVal.str "x")] 9 rfl).2⟩

theorem mergeObj_get_of_not_mem (task : Obj) {data : Obj} {k : String}
    (hk : k ∉ data.map Prod.fst) :
    aget (mergeObj task data) k = aget task k := by
  induction data generalizing task with
  | nil => rfl
  | cons p rest ih =>
    simp only [List.map_cons, List.mem_cons, not_or] at hk
    have step : mergeObj task (p :: rest) = mergeObj (aset task p.1 p.2) rest := rfl
    rw [step, ih (aset task p.1 p.2) hk.2, aget_aset_ne _ _ hk.1]

theorem mergeObj_get_of_mem (task : Obj) {data : Obj}
    (hd : (data.map Prod.fst).Nodup) {k : String} {v : JsVal}
    (hkv : aget data k = some v) :
    aget (mergeObj task data) k = some v := by
  induction data generalizing task with
  | nil => simp [aget] at hkv
  | cons p rest ih =>
    simp only [List.map_cons, List.nodup_cons] at hd
    have step : mergeObj task (p :: rest) = mergeObj (aset task p.1 p.2) rest := rfl
    rw [step]
    by_cases hp : p.1 = k
    · simp only [aget] at hkv
      rw [if_pos hp] at hkv
      have hv := Option.some.inj hkv
      rw [mergeObj_get_of_not_mem _ (hp ▸ hd.1), hp, aget_aset_self, hv]
    · simp only [aget] at hkv
      rw [if_neg hp] at hkv
      exact ih _ hd.2 hkv

/-- Counterexample for C7 as stated: if the document holds a task under
the key 0, then `save(data, callback, 0)` does not merge into it — `0` is
falsy, so `if (id)` sends the call down the creation branch: the stored
task 0 keeps its old fields (its `title` stays undefined rather than
taking the update's value) and a fresh task is inserted besides it. -/
theorem save_zero_key_not_merged :
    aget zeroKeyDoc.tasks 0 = some [("category", JsVal.str "a"), ("id", JsVal.num 0)] ∧
    Store.save zeroKeyDoc [("title", JsVal.str "b")] (some 0) 7 =
      some (⟨[(0, [("category", JsVal.str "a"), ("id", JsVal.num 0)]),
              (7, [("title", JsVal.str "b"), ("id", JsVal.num 7)])],
             [("a", [0]), ("undefined", [7])]⟩,
        .created [("title", JsVal.str "b"), ("id", JsVal.num 7)]) ∧
    (aget (⟨[(0, [("category", JsVal.str "a"), ("id", JsVal.num 0)]),
             (7, [("title", JsVal.str "b"), ("id", JsVal.num 7)])],
            [("a", [0]), ("undefined", [7])]⟩ : Doc).tasks 0).map
      (fun t => ogetD t "title") = some JsVal.undefined ∧
    (⟨[(0, [("category", JsVal.str "a"), ("id", JsVal.num 0)]),
       (7, [("title", JsVal.str "b"), ("id", JsVal.num 7)])],
      [("a", [0]), ("undefined", [7])]⟩ : Doc).tasks.length ≠
      zeroKeyDoc.tasks.length :=
  ⟨rfl, rfl, rfl, by decide⟩

/-- C7 (amended): for every *nonzero* id bound in `tasks`, `save(data,
callback, id)` merges `data` field by field into the stored task — every
key of `data` ends up with `data`'s value, every other field keeps the
stored task's value — re-stores the task under the same id, leaves every
other task binding and the whole category map unchanged, and passes the
updated document to the callback. -/
theorem save_existing_merges_fields (doc : Doc) (data task : Obj)
    (id : Int) (now : Int) (d2 : Doc) (e : Store.SaveEmit)
    (h0 : id ≠ 0)
    (htask : aget doc.tasks id = some task)
    (hdata : wfObj data)
    (hrun : Store.save doc data (some id) now = some (d2, e)) :
    e = .updated d2 ∧
    aget d2.tasks id = some (mergeObj task data) ∧
    (∀ k : String, k ∈ data.map Prod.fst →
      ogetD (mergeObj task data) k = ogetD data k) ∧
    (∀ k : String, k ∉ data.map Prod.fst →
      ogetD (mergeObj task data) k = ogetD task k) ∧
    (∀ i2 : Int, i2 ≠ id → aget d2.tasks i2 = aget doc.tasks i2) ∧
    d2.categories = doc.categories := by
  unfold Store.save at hrun
  dsimp only at hrun
  rw [if_neg h0, htask] at hrun
  dsimp only at hrun
  simp only [Option.some.injEq, Prod.mk.injEq] at hrun
  obtain ⟨hd, he⟩ := hrun
  subst hd
  refine ⟨he.symm, aget_aset_self _ _ _, ?_, ?_,
    fun i2 hi2 => aget_aset_ne _ _ hi2, rfl⟩
  · intro k hk
    obtain ⟨v, hv⟩ : ∃ v, aget data k = some v := by
      rcases hs : aget data k with _ | v
      · exact absurd hk (aget_eq_none_iff.mp hs)
      · exact ⟨v, rfl⟩
    unfold ogetD
    rw [hv, mergeObj_get_of_mem task hdata hv]
  · intro k hk
    unfold ogetD
    rw [mergeObj_get_of_not_mem task hk]

/-- Witness for C7: updating task 5 of `sampleStoreDoc` with
`{title:"b"}` rewrites its title, keeps its category field, and leaves the
category map untouched. -/
theorem save_existing_merges_fields_witness :
    ((5 : Int) ≠ 0) ∧ wfObj [("title", JsVal.str "b")] ∧
    aget
      (⟨[(5, mergeObj [("title", JsVal.str "a"), ("category", JsVal.str "home"),
          ("id", JsVal.num 5)] [("title", JsVal.str "b")])],
        [("home", [5])]⟩ : Doc).tasks 5 =
      some (mergeObj [("title", JsVal.str "a"), ("category", JsVal.str "home"),
        ("id", JsVal.num 5)] [("title", JsVal.str "b")]) ∧
    ogetD (mergeObj [("title", JsVal.str "a"), ("category", JsVal.str "home"),
      ("id", JsVal.num 5)] [("title", JsVal.str "b")]) "title" =
      JsVal.str "b" ∧
    ogetD (mergeObj [("title", JsVal.str "a"), ("category", JsVal.str "home"),
      ("id", JsVal.num 5)] [("title", JsVal.str "b")]) "category" =
      JsVal.str "home" :=
  ⟨by decide, by decide,
   (save_existing_merges_fields sampleStoreDoc [("title", JsVal.str "b")]
     [("title", JsVal.str "a"), ("category", JsVal.str "home"), ("id", JsVal.num 5)]
     5 9 _ _ (by decide) rfl (by decide) rfl).2.1,
   (save_existing_merges_fields sampleStoreDoc [("title", JsVal.str "b")]
     [("title", JsVal.str "a"), ("category", JsVal.str "home"), ("id", JsVal.num 5)]
     5 9 _ _ (by decide) rfl (by decide) rfl).2.2.1 "title" (by decide),
   (save_existing_merges_fields sampleStoreDoc [("title", JsVal.str "b")]
     [("title", JsVal.str "a"), ("category", JsVal.str "home"), ("id", JsVal.num 5)]
     5 9 _ _ (by decide) rfl (by decide) rfl).2.2.2.1 "category" (by decide)⟩

theorem strictEq_eq_true_iff {v w : JsVal} (hv : v.isPrim = true) :
    strictEq v w = true ↔ v = w := by
  cases v <;> cases w <;> simp_all [strictEq, JsVal.isPrim]

/-- C8: with a callback, `find(query, callback)` passes to the callback
exactly the stored tasks all of whose queried fields strictly equal the
query's values (in particular `find({completed: true})` yields exactly the
tasks whose `completed` field is `true`); without a callback it returns
before doing anything.  The `wfObj`/primitive hypotheses state that
`query` is the image of a real JavaScript object whose values are
primitives, on which the embedded `===` coincides with JavaScript's. -/
theorem find_yields_matching_tasks (doc : Doc) (query : Obj)
    (_hwf : wfObj query)
    (hprim : ∀ p ∈ query, (p.2).isPrim = true) :
    (∀ r, Store.find doc query true = some r →
      ∀ t : Obj, t ∈ r ↔
        ((∃ i : Int, (i, t) ∈ doc.tasks) ∧
         ∀ p ∈ query, ogetD t p.1 = p.2)) ∧
    Store.find doc query false = none := by
  refine ⟨?_, rfl⟩
  intro r hr t
  unfold Store.find at hr
  rw [if_pos rfl] at hr
  have hr2 := Option.some.inj hr
  subst hr2
  rw [List.mem_filter]
  constructor
  · rintro ⟨hmem, hall⟩
    rcases List.mem_map.mp hmem with ⟨q, hq, hqt⟩
    refine ⟨⟨q.1, by rwa [show (q.1, t) = q from by rw [← hqt]]⟩, ?_⟩
    intro p hp
    have := List.all_eq_true.mp hall p hp
    exact ((strictEq_eq_true_iff (hprim p hp)).mp this).symm
  · rintro ⟨⟨i, hi⟩, hfields⟩
    refine ⟨List.mem_map.mpr ⟨(i, t), hi, rfl⟩, ?_⟩
    rw [List.all_eq_true]
    intro p hp
    exact (strictEq_eq_true_iff (hprim p hp)).mpr (hfields p hp).symm

/-- Witness for C8: on `findSampleDoc`, `find({completed: true})` yields
exactly the completed task, and `find` without a callback does nothing. -/
theorem find_yields_matching_tasks_witness :
    wfObj [("completed", JsVal.bool true)] ∧
    ([("title", JsVal.str "a"), ("category", JsVal.str "h"),
      ("completed", JsVal.bool true), ("id", JsVal.num 1)] ∈
      [[("title", JsVal.str "a"), ("category", JsVal.str "h"),
        ("completed", JsVal.bool true), ("id", JsVal.num 1)]]) ∧
    ([("title", JsVal.str "b"), ("category", JsVal.str "h"),
      ("completed", JsVal.bool false), ("id", JsVal.num 2)] ∉
      [[("title", JsVal.str "a"), ("category", JsVal.str "h"),
        ("completed", JsVal.bool true), ("id", JsVal.num 1)]]) ∧
    Store.find findSampleDoc [("completed", JsVal.bool true)] false = none :=
  ⟨by decide,
   ((find_yields_matching_tasks findSampleDoc [("completed", JsVal.bool true)]
       (by decide) (by decide)).1 _ rfl _).mpr ⟨⟨1, by simp [findSampleDoc]⟩, by decide⟩,
   (fun hmem =>
     absurd
       ((((find_yields_matching_tasks findSampleDoc
           [("completed", JsVal.bool true)] (by decide) (by decide)).1 _ rfl
           _).mp hmem).2 ("completed", JsVal.bool true) (by decide))
       (by decide)),
   (find_yields_matching_tasks findSampleDoc [("completed", JsVal.bool true)]
     (by decide) (by decide)).2⟩

theorem escapeChars_of_no_special {l : List Char}
    (h : ∀ c ∈ l, Template.isUnescapedHtml c = false) :
    Template.escapeChars l = l := by
  induction l with
  | nil => rfl
  | cons c rest ih =>
    have hc := h c (List.mem_cons_self _ _)
    simp [Template.escapeChars, hc,
      ih (fun c2 h2 => h c2 (List.mem_cons_of_mem _ h2))]

/-- C9: the renderer's `escape` replaces every occurrence of the
characters in the class `[&<>"'` + backtick + `]` by their HTML entities
(character by character, including the strings the guard leaves alone,
where the replacement is the identity), and `show` feeds titles and
categories through it before interpolation: rendering the completed task
`{id:1, title:"<b>", category:"x", completed:true}` yields markup that
contains `&lt;b&gt;` and the `checked` marker but not the raw `<b>`, and a
task with category `<i>` renders `&lt;i&gt;` and not `<i>`. -/
theorem show_escapes_html :
    (∀ s : String, (Template.escape s).data = Template.escapeChars s.data) ∧
    Template.strContains (Template.showTasks [[("id", JsVal.num 1),
      ("title", JsVal.str "<b>"), ("category", JsVal.str "x"),
      ("completed", JsVal.bool true)]] true) "&lt;b&gt;" = true ∧
    Template.strContains (Template.showTasks [[("id", JsVal.num 1),
      ("title", JsVal.str "<b>"), ("category", JsVal.str "x"),
      ("completed", JsVal.bool true)]] true) "<b>" = false ∧
    Template.strContains (Template.showTasks [[("id", JsVal.num 1),
      ("title", JsVal.str "<b>"), ("category", JsVal.str "x"),
      ("completed", JsVal.bool true)]] true) "checked" = true ∧
    Template.strContains (Template.showTasks [[("id", JsVal.num 2),
      ("title", JsVal.str "t"), ("category", JsVal.str "<i>"),
      ("completed", JsVal.bool false)]] true) "&lt;i&gt;" = true ∧
    Template.strContains (Template.showTasks [[("id", JsVal.num 2),
      ("title", JsVal.str "t"), ("category", JsVal.str "<i>"),
      ("completed", JsVal.bool false)]] true) "<i>" = false := by
  refine ⟨?_, rfl, rfl, rfl, rfl, rfl⟩
  intro s
  unfold Template.escape
  by_cases h0 : s = ""
  · subst h0
    rfl
  · rw [if_neg h0]
    by_cases h1 : Template.hasUnescapedHtml s
    · rw [if_pos h1]
    · rw [if_neg h1]
      have hall : ∀ c ∈ s.data, Template.isUnescapedHtml c = false := by
        intro c hc
        by_contra hcc
        exact h1 (List.any_eq_true.mpr ⟨c, hc, by simpa using hcc⟩)
      rw [escapeChars_of_no_special hall]

theorem wf_insert (doc : Doc) (t2 : Obj) (now : Int)
    (hwf : doc.WF) (hfresh : aget doc.tasks now = none) :
    Doc.WF ⟨aset doc.tasks now t2,
      aset doc.categories (catKey t2)
        (((aget doc.categories (catKey t2)).getD []) ++ [now])⟩ := by
  obtain ⟨hw1, hw2, hw3, hw4, hw5⟩ := hwf
  have hnotinlists : ∀ p ∈ doc.categories, now ∉ p.2 := by
    intro p hp hmem
    have h := hw4 p hp now hmem
    rw [hfresh] at h
    simp at h
  have holdsub : ∀ i ∈ (aget doc.categories (catKey t2)).getD [],
      ∃ l0, aget doc.categories (catKey t2) = some l0 ∧ i ∈ l0 := by
    intro i hi
    rcases hcats : aget doc.categories (catKey t2) with _ | l0
    · rw [hcats] at hi
      simp at hi
    · rw [hcats] at hi
      exact ⟨l0, rfl, by simpa using hi⟩
  have hold_tasks : ∀ i ∈ (aget doc.categories (catKey t2)).getD [],
      (aget doc.tasks i).map catKey = some (catKey t2) := by
    intro i hi
    obtain ⟨l0, hc, hm⟩ := holdsub i hi
    exact hw4 (catKey t2, l0) (aget_mem hc) i hm
  have hold_notnow : now ∉ (aget doc.categories (catKey t2)).getD [] := by
    intro hmem
    obtain ⟨l0, hc, hm⟩ := holdsub now hmem
    exact hnotinlists (catKey t2, l0) (aget_mem hc) hm
  have hnodup_old : ((aget doc.categories (catKey t2)).getD []).Nodup := by
    rcases hcats : aget doc.categories (catKey t2) with _ | l0
    · simp
    · simpa using hw3 (catKey t2, l0) (aget_mem hcats)
  refine ⟨nodup_keys_aset _ hw1, nodup_keys_aset _ hw2, ?_, ?_, ?_⟩
  · intro p hp
    rcases mem_aset_elim hw2 hp with h1 | h1
    · subst h1
      exact nodup_append_single hnodup_old hold_notnow
    · exact hw3 p h1.1
  · intro p hp i hi
    rcases mem_aset_elim hw2 hp with h1 | h1
    · subst h1
      rcases List.mem_append.mp hi with h2 | h2
      · have hine : i ≠ now := fun he => hold_notnow (he ▸ h2)
        rw [aget_aset_ne _ _ hine]
        exact hold_tasks i h2
      · have hie : i = now := by simpa using h2
        subst hie
        rw [aget_aset_self]
        rfl
    · have hine : i ≠ now := fun he => hnotinlists p h1.1 (he ▸ hi)
      rw [aget_aset_ne _ _ hine]
      exact hw4 p h1.1 i hi
  · intro q hq
    rcases mem_aset_elim hw1 hq with h1 | h1
    · subst h1
      rw [aget_aset_self]
      simp
    · have hold := hw5 q h1.1
      by_cases hcq : catKey q.2 = catKey t2
      · rw [hcq, aget_aset_self]
        rw [hcq] at hold
        simp only [Option.getD_some]
        exact List.mem_append.mpr (Or.inl hold)
      · rw [aget_aset_ne _ _ hcq]
        exact hold

theorem wf_update (doc : Doc) (id : Int) (task t2 : Obj)
    (hwf : doc.WF) (htask : aget doc.tasks id = some task)
    (hcat : catKey t2 = catKey task) :
    Doc.WF ⟨aset doc.tasks id t2, doc.categories⟩ := by
  obtain ⟨hw1, hw2, hw3, hw4, hw5⟩ := hwf
  refine ⟨nodup_keys_aset _ hw1, hw2, hw3, ?_, ?_⟩
  · intro p hp i hi
    by_cases hiq : i = id
    · subst hiq
      rw [aget_aset_self]
      have h2 := hw4 p hp i hi
      rw [htask] at h2
      have h3 : catKey task = p.1 := Option.some.inj h2
      show some (catKey t2) = some p.1
      rw [hcat, h3]
    · rw [aget_aset_ne _ _ hiq]
      exact hw4 p hp i hi
  · intro q hq
    rcases mem_aset_elim hw1 hq with h1 | h1
    · subst h1
      show id ∈ (aget doc.categories (catKey t2)).getD []
      rw [hcat]
      exact hw5 (id, task) (aget_mem htask)
    · exact hw5 q h1.1

theorem wf_remove_done (doc : Doc) (id : Int) (d2 : Doc)
    (hwf : doc.WF) (hrun : Store.remove doc id = .done d2) : d2.WF := by
  obtain ⟨hw1, hw2, hw3, hw4, hw5⟩ := hwf
  unfold Store.remove at hrun
  rcases htask : aget doc.tasks id with _ | task
  · rw [htask] at hrun
    simp at hrun
  rw [htask] at hrun
  dsimp only at hrun
  rcases hcats : aget doc.categories (catKey task) with _ | l
  · rw [hcats] at hrun
    simp at hrun
  rw [hcats] at hrun
  dsimp only at hrun
  have hnl : l.Nodup := hw3 (catKey task, l) (aget_mem hcats)
  have hF1 : ∀ p ∈ doc.categories, id ∈ p.2 → p.1 = catKey task := by
    intro p hp hid2
    have h := hw4 p hp id hid2
    rw [htask] at h
    exact (Option.some.inj h).symm
  by_cases hmem : id ∈ l
  swap
  · rw [if_neg hmem] at hrun
    have hd := Store.RemoveResult.done.inj hrun
    subst hd
    exact ⟨hw1, hw2, hw3, hw4, hw5⟩
  rw [if_pos hmem] at hrun
  have hd := Store.RemoveResult.done.inj hrun
  subst hd
  by_cases hlen : (l.erase id).length = 0
  · have herase : l.erase id = [] := List.length_eq_zero.mp hlen
    rw [if_pos hlen]
    refine ⟨nodup_keys_adel hw1, nodup_keys_adel hw2, ?_, ?_, ?_⟩
    · intro p hp
      exact hw3 p (mem_adel_elim hp).1
    · intro p hp i hi
      obtain ⟨hp1, hp2⟩ := mem_adel_elim hp
      have hine : i ≠ id := fun he => hp2 (hF1 p hp1 (he ▸ hi))
      rw [aget_adel_ne _ hine]
      exact hw4 p hp1 i hi
    · intro q hq
      obtain ⟨hq1, hq2⟩ := mem_adel_elim hq
      have hold := hw5 q hq1
      by_cases hcq : catKey q.2 = catKey task
      · rw [hcq, hcats] at hold
        have : q.1 ∈ l.erase id :=
          (List.mem_erase_of_ne hq2).mpr (by simpa using hold)
        rw [herase] at this
        simp at this
      · rw [aget_adel_ne _ hcq]
        exact hold
  · rw [if_neg hlen]
    refine ⟨nodup_keys_adel hw1, nodup_keys_aset _ hw2, ?_, ?_, ?_⟩
    · intro p hp
      rcases mem_aset_elim hw2 hp with h1 | h1
      · subst h1
        exact hnl.erase id
      · exact hw3 p h1.1
    · intro p hp i hi
      rcases mem_aset_elim hw2 hp with h1 | h1
      · subst h1
        have hine : i ≠ id := ((hnl.mem_erase_iff).mp hi).1
        rw [aget_adel_ne _ hine]
        exact hw4 (catKey task, l) (aget_mem hcats) i (List.mem_of_mem_erase hi)
      · have hine : i ≠ id := fun he => h1.2 (hF1 p h1.1 (he ▸ hi))
        rw [aget_adel_ne _ hine]
        exact hw4 p h1.1 i hi
    · intro q hq
      obtain ⟨hq1, hq2⟩ := mem_adel_elim hq
      have hold := hw5 q hq1
      by_cases hcq : catKey q.2 = catKey task
      · rw [hcq, hcats] at hold
        rw [hcq, aget_aset_self]
        simp only [Option.getD_some]
        exact (List.mem_erase_of_ne hq2).mpr (by simpa using hold)
      · rw [aget_aset_ne _ _ hcq]
        exact hold

/-- Counterexample for C1 as stated: the plain documented invariant is not
preserved by every operation on every reachable document.
`categoryChangeDoc` is reachable (one `save` from the empty document) and
satisfies the invariant, but `save({category:"b"}, cb, 1)` rewrites the
task's `category` field without touching the category index, leaving a
document whose task's category `"b"` is not a key of `categories`. -/
theorem save_category_change_breaks_invariant :
    Store.Reachable categoryChangeDoc ∧ categoryChangeDoc.Inv ∧
    Store.save categoryChangeDoc [("category", JsVal.str "b")] (some 1) 9 =
      some (categoryChangeDocAfter, .updated categoryChangeDocAfter) ∧
    ¬ categoryChangeDocAfter.Inv :=
  ⟨Store.Reachable.saveStep Store.Reachable.init
     (rfl : Store.save emptyDoc
        [("title", JsVal.str "a"), ("category", JsVal.str "a")] none 1 =
        some (categoryChangeDoc,
          .created [("title", JsVal.str "a"), ("category", JsVal.str "a"),
            ("id", JsVal.num 1)])),
   by decide, rfl, by decide⟩

/-- C1 (amended): the invariant the bookkeeping actually maintains is the
strengthened `Doc.WF` (the category lists form an exact, duplicate-free
index of the task map).  It is preserved by `save` without a truthy id
provided the generated timestamp id is fresh; by `save` with a truthy
bound id provided the update does not change the task's category key (a
category-changing update breaks even the plain invariant, see the
counterexample); and by every persisting `remove`.  `drop` writes a
document with no tasks and an empty categories object, on which the
documented invariant holds vacuously. -/
theorem store_ops_preserve_strong_invariant :
    (∀ (doc : Doc) (data : Obj) (now : Int) (d2 : Doc) (e : Store.SaveEmit),
      doc.WF → aget doc.tasks now = none →
      Store.save doc data none now = some (d2, e) → d2.WF) ∧
    (∀ (doc : Doc) (data task : Obj) (id : Int) (now : Int) (d2 : Doc)
        (e : Store.SaveEmit),
      doc.WF → id ≠ 0 → aget doc.tasks id = some task →
      catKey (mergeObj task data) = catKey task →
      Store.save doc data (some id) now = some (d2, e) → d2.WF) ∧
    (∀ (doc : Doc) (id : Int) (d2 : Doc),
      doc.WF → Store.remove doc id = .done d2 → d2.WF) ∧
    (aget (Store.jfields Store.dropStored) "tasks" = none ∧
     aget (Store.jfields Store.dropStored) "categories" = some (.obj [])) := by
  refine ⟨?_, ?_, ?_, rfl, rfl⟩
  · intro doc data now d2 e hwf hfresh hrun
    simp only [Store.save, Store.saveNew, Option.some.injEq,
      Prod.mk.injEq] at hrun
    obtain ⟨hd, he⟩ := hrun
    subst hd
    exact wf_insert doc _ now hwf hfresh
  · intro doc data task id now d2 e hwf h0 htask hcat hrun
    unfold Store.save at hrun
    dsimp only at hrun
    rw [if_neg h0, htask] at hrun
    dsimp only at hrun
    simp only [Option.some.injEq, Prod.mk.injEq] at hrun
    obtain ⟨hd, he⟩ := hrun
    subst hd
    exact wf_update doc id task (mergeObj task data) hwf htask hcat
  · intro doc id d2 hwf hrun
    exact wf_remove_done doc id d2 hwf hrun

/-- Witness for C1: the empty document is well-formed; saving a fresh task
into it, updating that task's title, and removing it all yield well-formed
documents. -/
theorem store_ops_preserve_strong_invariant_witness :
    sampleStoreDoc.WF ∧
    Doc.WF ⟨[(5, mergeObj [("title", JsVal.str "a"),
      ("category", JsVal.str "home"), ("id", JsVal.num 5)]
      [("title", JsVal.str "b")])], [("home", [5])]⟩ ∧
    emptyDoc.WF :=
  ⟨store_ops_preserve_strong_invariant.1 emptyDoc
     [("title", JsVal.str "a"), ("category", JsVal.str "home")] 5
     sampleStoreDoc
     (.created [("title", JsVal.str "a"), ("category", JsVal.str "home"),
       ("id", JsVal.num 5)])
     (by decide) rfl rfl,
   store_ops_preserve_strong_invariant.2.1 sampleStoreDoc
     [("title", JsVal.str "b")]
     [("title", JsVal.str "a"), ("category", JsVal.str "home"),
       ("id", JsVal.num 5)] 5 9
     ⟨[(5, mergeObj [("title", JsVal.str "a"),
        ("category", JsVal.str "home"), ("id", JsVal.num 5)]
        [("title", JsVal.str "b")])], [("home", [5])]⟩
     (.updated ⟨[(5, mergeObj [("title", JsVal.str "a"),
        ("category", JsVal.str "home"), ("id", JsVal.num 5)]
        [("title", JsVal.str "b")])], [("home", [5])]⟩)
     (by decide) (by decide) rfl (by decide) rfl,
   store_ops_preserve_strong_invariant.2.2.1 sampleStoreDoc 5 emptyDoc
     (by decide) rfl⟩

/-- C5: removing an id bound in `tasks` of a well-formed document deletes
that binding, removes the id from its task's category list, deletes the
category key entirely when that list becomes empty, leaves every other
task binding and category list unchanged, and persists and yields the
resulting document (the `done` outcome persists its document and passes it
to the callback). -/
theorem remove_known_id_spec (doc : Doc) (id : Int) (task : Obj)
    (hwf : doc.WF) (htask : aget doc.tasks id = some task) :
    (aget doc.categories (catKey task)).isSome ∧
    (∀ l, aget doc.categories (catKey task) = some l →
      Store.remove doc id = .done
        ⟨adel doc.tasks id,
         if (l.erase id).length = 0 then adel doc.categories (catKey task)
         else aset doc.categories (catKey task) (l.erase id)⟩ ∧
      aget (adel doc.tasks id) id = none ∧
      (∀ i2 : Int, i2 ≠ id →
        aget (adel doc.tasks id) i2 = aget doc.tasks i2) ∧
      id ∉ l.erase id ∧
      ((l.erase id).length = 0 →
        aget (adel doc.categories (catKey task)) (catKey task) = none) ∧
      ((l.erase id).length ≠ 0 →
        aget (aset doc.categories (catKey task) (l.erase id)) (catKey task) =
          some (l.erase id)) ∧
      (∀ c : String, c ≠ catKey task →
        aget (adel doc.categories (catKey task)) c = aget doc.categories c ∧
        aget (aset doc.categories (catKey task) (l.erase id)) c =
          aget doc.categories c)) := by
  obtain ⟨hw1, hw2, hw3, hw4, hw5⟩ := hwf
  have hmem0 : id ∈ (aget doc.categories (catKey task)).getD [] :=
    hw5 (id, task) (aget_mem htask)
  constructor
  · rcases hcats : aget doc.categories (catKey task) with _ | l
    · rw [hcats] at hmem0
      simp at hmem0
    · rfl
  intro l hl
  rw [hl] at hmem0
  simp only [Option.getD_some] at hmem0
  have hnl : l.Nodup := hw3 (catKey task, l) (aget_mem hl)
  refine ⟨?_, aget_adel_self _ _, fun i2 hi2 => aget_adel_ne _ hi2, ?_,
    fun _ => aget_adel_self _ _, fun _ => aget_aset_self _ _ _,
    fun c hc => ⟨aget_adel_ne _ hc, aget_aset_ne _ _ hc⟩⟩
  · unfold Store.remove
    rw [htask]
    dsimp only
    rw [hl]
    dsimp only
    rw [if_pos hmem0]
  · intro hbad
    exact (hnl.mem_erase_iff.mp hbad).1 rfl

/-- Witness for C5: removing task 5 from the well-formed one-task document
`sampleStoreDoc` empties both maps (the `home` category key is deleted
because its list became empty). -/
theorem remove_known_id_spec_witness :
    sampleStoreDoc.WF ∧
    Store.remove sampleStoreDoc 5 = .done ⟨[], []⟩ ∧
    aget (adel sampleStoreDoc.tasks 5) 5 = none :=
  ⟨by decide,
   ((remove_known_id_spec sampleStoreDoc 5
      [("title", JsVal.str "a"), ("category", JsVal.str "home"),
        ("id", JsVal.num 5)] (by decide) rfl).2 [5] rfl).1,
   ((remove_known_id_spec sampleStoreDoc 5
      [("title", JsVal.str "a"), ("category", JsVal.str "home"),
        ("id", JsVal.num 5)] (by decide) rfl).2 [5] rfl).2.1⟩
